import Mathlib

/-!
# Verification of `apa_plotter.py`

Shallow embedding of the APA heatmap plotter script.  The script loads a
square matrix, computes the P2LL score (`get_score`), renders a heatmap
(`plot_hic_map`) and writes a PNG next to the input file (`main`).

Modelling conventions:
* matrix entries are rationals (`ℚ`); a value of type `Option ℚ` models a
  Python float that may be non-finite: `none` stands for NaN or ±Inf
  (produced by `np.mean` of an empty slice or by division by zero), and
  `some q` for the finite value `q`;
* `np.max` over an empty array raises in NumPy; we model its result as
  `Option ℚ`, `none` on the empty matrix;
* strings are lists of characters so that Python's `str.replace` can be
  modelled character by character.
-/

namespace APA

/-- A square matrix as the script sees it: a side length `n`
(`matrix.shape[0]`) and an entry function.  Entries outside
`[0, n) × [0, n)` are never read by the embedded code. -/
structure Mat where
  n : ℕ
  entry : ℕ → ℕ → ℚ

/-- All index pairs of an `n × n` matrix, row major. -/
def allCells (n : ℕ) : List (ℕ × ℕ) :=
  (List.range n).flatMap fun i => (List.range n).map fun j => (i, j)

/-- Maximum of a list of rationals, `none` on the empty list.
Models `np.max` (which raises on an empty array). -/
def listMax : List ℚ → Option ℚ
  | [] => none
  | x :: xs =>
    match listMax xs with
    | none => some x
    | some y => some (max x y)

/-- `np.max(matrix)` over all `n × n` elements. -/
def npMax (m : Mat) : Option ℚ :=
  listMax ((allCells m.n).map fun p => m.entry p.1 p.2)

/-- Index pairs of the slice `matrix[-buffer:, :buffer]` with
`buffer = n / 4`.  NumPy semantics: for `buffer > 0` the row slice
`-buffer:` selects the last `buffer` rows; for `buffer = 0` it selects
all rows (`-0:` is `0:`), and the column slice `:0` is empty, so the
slice is empty either way. -/
def blockCells (m : Mat) : List (ℕ × ℕ) :=
  let b := m.n / 4
  let rows := if b = 0 then List.range m.n else (List.range b).map fun k => m.n - b + k
  rows.flatMap fun i => (List.range b).map fun j => (i, j)

/-- The values of the lower-left slice, row major. -/
def blockValues (m : Mat) : List ℚ :=
  (blockCells m).map fun p => m.entry p.1 p.2

/-- `np.mean` of a list of values: sum divided by count; `none` (NaN)
on the empty list, which is what `np.mean` of an empty slice returns
(with a RuntimeWarning). -/
def npMean (xs : List ℚ) : Option ℚ :=
  if xs.length = 0 then none else some (xs.sum / xs.length)

/-- Float division `a / b` where `b` may already be non-finite:
NaN propagates, and division by zero produces ±Inf or NaN — in every
case a non-finite result, modelled as `none`. -/
def pyDiv (a : ℚ) : Option ℚ → Option ℚ
  | none => none
  | some q => if q = 0 then none else some (a / q)

/-- Embedding of `get_score` (src/apa_plotter.py, lines 33–41):
```
rows = matrix.shape[0]
buffer = rows // 4
color_limit = np.max(matrix)
center = matrix[rows // 2, rows // 2]
lower_left_mean = np.mean(matrix[-buffer:, :buffer])
score = center / lower_left_mean
return score, color_limit
``` -/
def get_score (m : Mat) : Option ℚ × Option ℚ :=
  let rows := m.n
  let color_limit := npMax m
  let center := m.entry (rows / 2) (rows / 2)
  let lower_left_mean := npMean (blockValues m)
  let score := pyDiv center lower_left_mean
  (score, color_limit)

/-! ## State-passing embedding of `get_score` and `plot_hic_map`

The source never assigns into `matrix`; to make that checkable the
functions are re-embedded in state-passing style, where every array
operation returns the (unchanged) matrix it was given alongside its
value, and the final matrix is part of the result. -/

/-- `matrix.shape[0]`, threading the matrix. -/
def readShape (m : Mat) : ℕ × Mat := (m.n, m)

/-- `np.max(matrix)`, threading the matrix. -/
def readMaxSt (m : Mat) : Option ℚ × Mat := (npMax m, m)

/-- `matrix[i, j]`, threading the matrix. -/
def readEntrySt (m : Mat) (i j : ℕ) : ℚ × Mat := (m.entry i j, m)

/-- `np.mean(matrix[-buffer:, :buffer])`, threading the matrix. -/
def readBlockMeanSt (m : Mat) : Option ℚ × Mat := (npMean (blockValues m), m)

/-- `get_score` in state-passing style. -/
def get_score_st (m0 : Mat) : (Option ℚ × Option ℚ) × Mat :=
  let p1 := readShape m0
  let rows := p1.1
  let p2 := readMaxSt p1.2
  let color_limit := p2.1
  let p3 := readEntrySt p2.2 (rows / 2) (rows / 2)
  let center := p3.1
  let p4 := readBlockMeanSt p3.2
  let lower_left_mean := p4.1
  ((pyDiv center lower_left_mean, color_limit), p4.2)

/-- One rendering call issued by `plot_hic_map` (the renderer is an
external collaborator; only the calls and their arguments are modelled). -/
inductive RenderAct where
  | matshow (vmin : ℚ) (vmax : Option ℚ)
  | hideTickLabelsX
  | hideTickLabelsY
  | setTitle (score : Option ℚ)
deriving DecidableEq

/-- Embedding of `plot_hic_map` (lines 43–49): compute the score, then
issue `matshow(matrix, vmin=0, vmax=color_limit)`, suppress both axes'
tick labels, and set the score title.  State-passing as above. -/
def plot_hic_map_st (m0 : Mat) : List RenderAct × Mat :=
  let r := get_score_st m0
  let score := r.1.1
  let color_limit := r.1.2
  ([RenderAct.matshow 0 color_limit, RenderAct.hideTickLabelsX,
    RenderAct.hideTickLabelsY, RenderAct.setTitle score], r.2)

/-! ## The CLI (`main`, lines 51–64) -/

/-- The characters of the literal `".png"`. -/
def pngChars : List Char := ['.', 'p', 'n', 'g']

/-- The characters of the literal `".npy"`. -/
def npyChars : List Char := ['.', 'n', 'p', 'y']

/-- Python `path.replace(".npy", ".png")`, the call on line 62,
specialised to its constant arguments: scan left to right, replacing
every non-overlapping occurrence of `".npy"` by `".png"`. -/
def replaceNpy : List Char → List Char
  | '.' :: 'n' :: 'p' :: 'y' :: rest => pngChars ++ replaceNpy rest
  | c :: rest => c :: replaceNpy rest
  | [] => []

/-- Whether `".npy"` occurs as a contiguous substring. -/
def hasNpy : List Char → Bool
  | '.' :: 'n' :: 'p' :: 'y' :: _ => true
  | _ :: rest => hasNpy rest
  | [] => false

/-- Observable outcome of one run of `main`: the exit code, whether the
usage message was printed, and the list of paths written to. -/
structure MainOutcome where
  exitCode : ℕ
  usageShown : Bool
  fileWrites : List (List Char)
deriving DecidableEq

/-- Embedding of `main` (lines 51–64): with exactly one positional
argument (`len(sys.argv) == 2`), load, plot, and save the figure to
`sys.argv[1].replace(".npy", ".png")` — the only file write, overwriting
whatever is at that path; otherwise print the usage string and
`sys.exit(1)`.  The success path models a loadable input file (loader
failures are the external `LoadError` collaborator's concern). -/
def mainRun : List (List Char) → MainOutcome
  | [input] => ⟨0, false, [replaceNpy input]⟩
  | _ => ⟨1, true, []⟩

/-! ## Spec-side definitions (§4.1 of the specification)

These are written from the specification's words, to be compared with
the embedded source above. -/

/-- Spec §4.1 step 1: `buffer = floor(N / 4)`. -/
def specBuffer (n : ℕ) : ℕ := n / 4

/-- Spec §4.1 step 2, propositionally: `c` is the maximum over all
`N × N` elements — it bounds every element and is attained by one. -/
def specIsMax (m : Mat) (c : ℚ) : Prop :=
  (∀ i j, i < m.n → j < m.n → m.entry i j ≤ c) ∧
    ∃ i j, i < m.n ∧ j < m.n ∧ m.entry i j = c

/-- Spec §4.1 steps 4–5: the mean over the `buffer × buffer` sub-block
formed by the last `buffer` rows and the first `buffer` columns. -/
def specLowerLeftMean (m : Mat) : ℚ :=
  (∑ i in Finset.Ico (m.n - specBuffer m.n) m.n,
      ∑ j in Finset.range (specBuffer m.n), m.entry i j) /
    (specBuffer m.n * specBuffer m.n)

/-- Spec §6 (file format, output): the output path obtained by replacing
the input file's recognized `.npy` extension with `.png` — the final
four characters when they are `".npy"`, the path unchanged otherwise. -/
def specOutputPath (p : List Char) : List Char :=
  if npyChars.isSuffixOf p then p.take (p.length - 4) ++ pngChars else p

/-! ## Helper lemmas -/

theorem listMax_isSome : ∀ {l : List ℚ}, l ≠ [] → ∃ c, listMax l = some c := by
  intro l hl
  cases l with
  | nil => exact absurd rfl hl
  | cons x xs =>
    rw [listMax]
    cases listMax xs with
    | none => exact ⟨x, rfl⟩
    | some y => exact ⟨max x y, rfl⟩

theorem listMax_mem : ∀ {l : List ℚ} {c : ℚ}, listMax l = some c → c ∈ l := by
  intro l
  induction l with
  | nil => intro c h; simp [listMax] at h
  | cons x xs ih =>
    intro c h
    rw [listMax] at h
    cases hx : listMax xs with
    | none => rw [hx] at h; injection h with h; exact h ▸ List.mem_cons_self x xs
    | some y =>
      rw [hx] at h
      injection h with h
      rcases max_choice x y with hm | hm
      · rw [← h, hm]; exact List.mem_cons_self x xs
      · rw [← h, hm]; exact List.mem_cons_of_mem x (ih hx)

theorem le_listMax : ∀ {l : List ℚ} {x c : ℚ}, x ∈ l → listMax l = some c → x ≤ c := by
  intro l
  induction l with
  | nil => intro x c hx _; simp at hx
  | cons a xs ih =>
    intro x c hx h
    rw [listMax] at h
    cases hax : listMax xs with
    | none =>
      rw [hax] at h
      injection h with h
      rcases List.mem_cons.mp hx with h1 | h1
      · rw [h1, h]
      · obtain ⟨d, hd⟩ := listMax_isSome (List.ne_nil_of_mem h1)
        rw [hax] at hd
        cases hd
    | some y =>
      rw [hax] at h
      injection h with h
      rcases List.mem_cons.mp hx with h1 | h1
      · rw [← h, h1]; exact le_max_left a y
      · rw [← h]; exact le_trans (ih h1 hax) (le_max_right a y)

theorem listMax_const : ∀ {l : List ℚ} {v : ℚ}, (∀ x ∈ l, x = v) → l ≠ [] → listMax l = some v := by
  intro l
  induction l with
  | nil => intro v _ h; exact absurd rfl h
  | cons x xs ih =>
    intro v hv _
    rw [listMax]
    cases xs with
    | nil => simp [listMax]; exact hv x (List.mem_cons_self x [])
    | cons b bs =>
      rw [ih (fun y hy => hv y (List.mem_cons_of_mem x hy)) (List.cons_ne_nil b bs)]
      rw [hv x (List.mem_cons_self x _)]
      simp

theorem mem_allCells {n i j : ℕ} : (i, j) ∈ allCells n ↔ i < n ∧ j < n := by
  simp [allCells]

theorem allCells_ne_nil {n : ℕ} (hn : 0 < n) : allCells n ≠ [] := by
  intro h
  have : (0, 0) ∈ allCells n := mem_allCells.mpr ⟨hn, hn⟩
  rw [h] at this
  simp at this

theorem npMax_spec (m : Mat) (hn : 0 < m.n) : ∃ c, npMax m = some c ∧ specIsMax m c := by
  have hne : ((allCells m.n).map fun p => m.entry p.1 p.2) ≠ [] := by
    intro h
    exact allCells_ne_nil hn (List.map_eq_nil_iff.mp h)
  obtain ⟨c, hc⟩ := listMax_isSome hne
  refine ⟨c, hc, ?_, ?_⟩
  · intro i j hi hj
    exact le_listMax (List.mem_map.mpr ⟨(i, j), mem_allCells.mpr ⟨hi, hj⟩, rfl⟩) hc
  · obtain ⟨⟨i, j⟩, hmem, hval⟩ := List.mem_map.mp (listMax_mem hc)
    exact ⟨i, j, (mem_allCells.mp hmem).1, (mem_allCells.mp hmem).2, hval⟩

theorem sum_flatMap {α : Type} (f : α → List ℚ) :
    ∀ l : List α, (l.flatMap f).sum = (l.map fun x => (f x).sum).sum := by
  intro l
  induction l with
  | nil => rfl
  | cons a l ih => simp [List.flatMap_cons, List.sum_append, ih]

theorem length_flatMap_const {α β : Type} (f : α → List β) (k : ℕ) :
    ∀ l : List α, (∀ x ∈ l, (f x).length = k) → (l.flatMap f).length = l.length * k := by
  intro l
  induction l with
  | nil => intro _; simp
  | cons a l ih =>
    intro h
    rw [List.flatMap_cons, List.length_append, h a (List.mem_cons_self a l),
      ih fun x hx => h x (List.mem_cons_of_mem a hx), List.length_cons]
    ring

theorem sum_map_range (f : ℕ → ℚ) : ∀ n : ℕ,
    ((List.range n).map f).sum = ∑ i in Finset.range n, f i := by
  intro n
  induction n with
  | zero => rfl
  | succ n ih =>
    rw [List.range_succ, List.map_append, List.sum_append, Finset.sum_range_succ, ih]
    simp

theorem blockValues_eq (m : Mat) (hb : m.n / 4 ≠ 0) :
    blockValues m = ((List.range (m.n / 4)).map fun k => m.n - m.n / 4 + k).flatMap
      fun i => (List.range (m.n / 4)).map fun j => m.entry i j := by
  rw [blockValues, blockCells]
  simp only [hb, if_false, List.map_flatMap, List.map_map]
  rfl

theorem length_blockValues (m : Mat) (hb : m.n / 4 ≠ 0) :
    (blockValues m).length = m.n / 4 * (m.n / 4) := by
  rw [blockValues_eq m hb, length_flatMap_const _ (m.n / 4) _ fun x _ => by simp]
  simp

theorem sum_blockValues (m : Mat) (hb : m.n / 4 ≠ 0) :
    (blockValues m).sum = ∑ i in Finset.Ico (m.n - m.n / 4) m.n,
      ∑ j in Finset.range (m.n / 4), m.entry i j := by
  rw [blockValues_eq m hb, sum_flatMap, List.map_map, sum_map_range,
    Finset.sum_Ico_eq_sum_range, Nat.sub_sub_self (Nat.div_le_self m.n 4)]
  exact Finset.sum_congr rfl fun k _ => (sum_map_range _ _).symm

theorem buffer_ne_zero {n : ℕ} (h4 : 4 ≤ n) : n / 4 ≠ 0 :=
  Nat.one_le_iff_ne_zero.mp ((Nat.one_le_div_iff (by norm_num)).mpr h4)

theorem npMean_blockValues (m : Mat) (h4 : 4 ≤ m.n) :
    npMean (blockValues m) = some (specLowerLeftMean m) := by
  have hb : m.n / 4 ≠ 0 := buffer_ne_zero h4
  rw [npMean, length_blockValues m hb, if_neg (Nat.mul_ne_zero hb hb),
    sum_blockValues m hb, specLowerLeftMean, specBuffer]
  norm_cast

theorem replaceNpy_cons_ne (c : Char) (t : List Char) (hc : c ≠ '.') :
    replaceNpy (c :: t) = c :: replaceNpy t := by
  rw [replaceNpy.eq_def]
  split
  · rename_i rest heq
    rw [List.cons.injEq] at heq
    exact absurd heq.1 hc
  · rename_i x d rest hno heq
    injection heq with h1 h2
    rw [h1, h2]
  · rename_i x heq
    exact absurd heq (List.cons_ne_nil c t)

theorem replaceNpy_append (s : List Char) (hs : '.' ∉ s) :
    replaceNpy (s ++ npyChars) = s ++ pngChars := by
  induction s with
  | nil => decide
  | cons c t ih =>
    have hc : c ≠ '.' := fun h => hs (h ▸ List.mem_cons_self c t)
    rw [List.cons_append, replaceNpy_cons_ne c _ hc, ih fun h => hs (List.mem_cons_of_mem c h)]
    rfl

theorem hasNpy_cons_false {c : Char} {t : List Char} (hs : hasNpy (c :: t) = false) :
    hasNpy t = false := by
  rw [hasNpy.eq_def] at hs
  split at hs
  · exact absurd hs (by decide)
  · rename_i y rest2 hno2 heq2
    injection heq2 with g1 g2
    rw [g2]
    exact hs
  · rename_i heq2
    exact absurd heq2 (List.cons_ne_nil c t)

theorem replaceNpy_of_not_hasNpy (s : List Char) (hs : hasNpy s = false) :
    replaceNpy s = s := by
  induction s with
  | nil => rfl
  | cons c t ih =>
    rw [replaceNpy.eq_def]
    split
    · rename_i rest heq
      rw [heq, hasNpy] at hs
      exact absurd hs (by decide)
    · rename_i x d rest hno heq
      injection heq with h1 h2
      subst h1
      subst h2
      rw [ih (hasNpy_cons_false hs)]
    · rename_i x heq
      exact absurd heq (List.cons_ne_nil c t)

theorem get_score_eq (m : Mat) :
    get_score m = (pyDiv (m.entry (m.n / 2) (m.n / 2)) (npMean (blockValues m)), npMax m) := rfl

theorem sum_const_list : ∀ {l : List ℚ} {v : ℚ}, (∀ x ∈ l, x = v) → l.sum = l.length * v := by
  intro l
  induction l with
  | nil => intro v _; simp
  | cons a t ih =>
    intro v h
    rw [List.sum_cons, ih fun x hx => h x (List.mem_cons_of_mem a hx),
      h a (List.mem_cons_self a t), List.length_cons]
    push_cast
    ring

theorem npMean_const {l : List ℚ} {v : ℚ} (h : ∀ x ∈ l, x = v) (hne : l.length ≠ 0) :
    npMean l = some v := by
  rw [npMean, if_neg hne, sum_const_list h]
  have : (l.length : ℚ) ≠ 0 := Nat.cast_ne_zero.mpr hne
  rw [mul_comm, mul_div_assoc, div_self this, mul_one]

/-! ## The claims -/

/-- Claim C1: for every square N×N matrix with N ≥ 4 (with a nonzero
lower-left mean, which the division the claim specifies presupposes),
`get_score` returns exactly the pair (score, colorLimit) where
score = center / lowerLeftMean — center the element at the integer
midpoint, lowerLeftMean the mean over the last `buffer` rows and first
`buffer` columns with `buffer = floor(N/4)` — and colorLimit is the
maximum over all N×N elements. -/
theorem getScore_meets_spec (m : Mat) (h4 : 4 ≤ m.n) (hmean : specLowerLeftMean m ≠ 0) :
    (get_score m).1 = some (m.entry (m.n / 2) (m.n / 2) / specLowerLeftMean m) ∧
      ∃ c, (get_score m).2 = some c ∧ specIsMax m c := by
  rw [get_score_eq]
  constructor
  · rw [npMean_blockValues m h4]
    simp only [pyDiv]
    rw [if_neg hmean]
  · exact npMax_spec m (by omega)

/-- Witness for C1 at the constant 4×4 matrix of value 2. -/
theorem getScore_meets_spec_witness :
    4 ≤ (Mat.mk 4 fun _ _ => 2).n ∧ specLowerLeftMean (Mat.mk 4 fun _ _ => 2) ≠ 0 ∧
      ((get_score (Mat.mk 4 fun _ _ => 2)).1 =
          some ((Mat.mk 4 fun _ _ => 2).entry 2 2 / specLowerLeftMean (Mat.mk 4 fun _ _ => 2)) ∧
        ∃ c, (get_score (Mat.mk 4 fun _ _ => 2)).2 = some c ∧ specIsMax (Mat.mk 4 fun _ _ => 2) c) := by
  have hm : specLowerLeftMean (Mat.mk 4 fun _ _ => 2) ≠ 0 := by
    norm_num [specLowerLeftMean, specBuffer, Finset.sum_Ico_eq_sum_range]
  exact ⟨by norm_num, hm, getScore_meets_spec (Mat.mk 4 fun _ _ => 2) (by norm_num) hm⟩

/-- Claim C2 (code behaviour at the claimed failure point): on a 3×3
matrix (N < 4, so `buffer = 0` and the corner slice is empty) the code
does not raise any `InvalidDimensionError` — no such error exists in the
source — it silently returns a NaN score (modelled `none`) together with
the colour limit. -/
theorem getScore_small_matrix_nan :
    get_score ⟨3, fun _ _ => 1⟩ = (none, some 1) := by decide

/-- Claim C3 (code behaviour at the claimed failure point): on a 4×4
matrix whose lower-left 1×1 block is zero and whose center is 5, the
code does not raise any `DegenerateInputError` — no such error exists in
the source — the division by the zero mean silently yields a non-finite
score (modelled `none`). -/
theorem getScore_zero_block_nonfinite :
    get_score ⟨4, fun i j => if i = 2 ∧ j = 2 then 5 else 0⟩ = (none, some 5) := by
  simp [get_score, npMax, allCells, listMax, blockValues, blockCells, npMean, pyDiv,
    List.range_succ]

/-- Claim C4: for every nonempty matrix of non-negative elements, the
colorLimit returned by `get_score` is some `c` with `c ≥ 0` and
`c ≥ every element`, because it is the matrix maximum. -/
theorem colorLimit_bounds (m : Mat) (hn : 0 < m.n)
    (hpos : ∀ i j, i < m.n → j < m.n → 0 ≤ m.entry i j) :
    ∃ c, (get_score m).2 = some c ∧ 0 ≤ c ∧
      ∀ i j, i < m.n → j < m.n → m.entry i j ≤ c := by
  obtain ⟨c, hc, hbound, i, j, hi, hj, hval⟩ := npMax_spec m hn
  exact ⟨c, by rw [get_score_eq]; exact hc, hval ▸ hpos i j hi hj, hbound⟩

/-- Witness for C4 at the constant 2×2 matrix of value 3. -/
theorem colorLimit_bounds_witness :
    0 < (Mat.mk 2 fun _ _ => 3).n ∧
      ∃ c, (get_score (Mat.mk 2 fun _ _ => 3)).2 = some c ∧ 0 ≤ c ∧
        ∀ i j, i < (Mat.mk 2 fun _ _ => 3).n → j < (Mat.mk 2 fun _ _ => 3).n →
          (Mat.mk 2 fun _ _ => 3).entry i j ≤ c :=
  ⟨by norm_num, colorLimit_bounds (Mat.mk 2 fun _ _ => 3) (by norm_num)
    fun i j _ _ => by norm_num⟩

/-- Claim C5: for every uniform square matrix (N ≥ 4) of constant value
v > 0, `get_score` returns score 1 and colorLimit v. -/
theorem getScore_uniform (n : ℕ) (v : ℚ) (h4 : 4 ≤ n) (hv : 0 < v) :
    get_score ⟨n, fun _ _ => v⟩ = (some 1, some v) := by
  have hb := buffer_ne_zero h4
  have h1 : npMean (blockValues ⟨n, fun _ _ => v⟩) = some v := by
    apply npMean_const
    · intro x hx
      obtain ⟨p, _, hp⟩ := List.mem_map.mp hx
      exact hp.symm
    · rw [length_blockValues _ hb]
      exact Nat.mul_ne_zero hb hb
  have h2 : npMax ⟨n, fun _ _ => v⟩ = some v := by
    apply listMax_const
    · intro x hx
      obtain ⟨p, _, hp⟩ := List.mem_map.mp hx
      exact hp.symm
    · intro hnil
      exact allCells_ne_nil (show 0 < n by omega) (List.map_eq_nil_iff.mp hnil)
  rw [get_score_eq, h1, h2]
  simp only [pyDiv]
  rw [if_neg hv.ne', div_self hv.ne']

/-- Witness for C5 at n = 4, v = 3. -/
theorem getScore_uniform_witness :
    4 ≤ 4 ∧ (0 : ℚ) < 3 ∧ get_score ⟨4, fun _ _ => 3⟩ = (some 1, some 3) :=
  ⟨le_refl 4, by norm_num, getScore_uniform 4 3 (le_refl 4) (by norm_num)⟩

/-- Claim C6: on the 8×8 matrix that is all zeros except entry (4,4) = 10
and entries (7,0), (7,1), (6,0), (6,1) = 4, `get_score` returns score
5/2 (= 2.5, from buffer 2, lower-left mean 4, center 10) and colour
limit 10. -/
theorem getScore_concrete8 :
    get_score ⟨8, fun i j => if i = 4 ∧ j = 4 then 10
      else if (i = 7 ∨ i = 6) ∧ (j = 0 ∨ j = 1) then 4 else 0⟩ = (some (5 / 2), some 10) := by
  simp [get_score, npMax, allCells, listMax, blockValues, blockCells, npMean, pyDiv,
    List.range_succ]
  norm_num

/-- Claim C7: neither the score computation nor the rendering step
modifies the matrix — in the state-passing embeddings of `get_score`
and `plot_hic_map`, the matrix after the call equals the matrix before
the call. -/
theorem getScore_plot_preserve_matrix (m : Mat) :
    (get_score_st m).2 = m ∧ (plot_hic_map_st m).2 = m := ⟨rfl, rfl⟩

/-- Claim C8: invoked with a wrong number of positional arguments (zero,
or two or more), `main` prints the usage message, exits with code 1, and
writes no file. -/
theorem main_wrong_argcount (args : List (List Char))
    (h : args.length = 0 ∨ 2 ≤ args.length) :
    mainRun args = ⟨1, true, []⟩ := by
  cases args with
  | nil => rfl
  | cons a t =>
    cases t with
    | nil => rcases h with h | h <;> simp at h
    | cons b r => rfl

/-- Witness for C8 with zero arguments. -/
theorem main_wrong_argcount_witness :
    (([] : List (List Char)).length = 0 ∨ 2 ≤ ([] : List (List Char)).length) ∧
      mainRun [] = ⟨1, true, []⟩ :=
  ⟨Or.inl rfl, main_wrong_argcount [] (Or.inl rfl)⟩

/-- Counterexample to claim C9 as stated: for the input path
"x.npy.npy" the program writes to "x.png.png" (every occurrence of
".npy" replaced), not to the extension-replaced path "x.npy.png". -/
theorem outputPath_ext_counterexample :
    (mainRun ["x.npy.npy".toList]).fileWrites ≠ ["x.npy.npy".toList |> specOutputPath] := by
  decide

/-- Claim C9 (amended): the output path is the input path with every
occurrence of the substring ".npy" replaced by ".png"; for an input of
the form `stem ++ ".npy"` whose stem contains no dot — in particular any
path whose only ".npy" is its final extension — this coincides with
replacing the extension, and that single path is written. -/
theorem outputPath_replaces_extension (s : List Char) (hs : '.' ∉ s) :
    mainRun [s ++ npyChars] = ⟨0, false, [s ++ pngChars]⟩ := by
  have h : mainRun [s ++ npyChars] = ⟨0, false, [replaceNpy (s ++ npyChars)]⟩ := rfl
  rw [h, replaceNpy_append s hs]

/-- Witness for the amended C9 at the input path "apa.npy". -/
theorem outputPath_replaces_extension_witness :
    ('.' ∉ "apa".toList) ∧
      mainRun ["apa".toList ++ npyChars] = ⟨0, false, ["apa".toList ++ pngChars]⟩ :=
  ⟨by decide, outputPath_replaces_extension "apa".toList (by decide)⟩

/-- Claim C10: the output path is computed by substring replacement of
every occurrence of ".npy"; for an input path containing no ".npy" at
all, the output path equals the input path unchanged, so the PNG is
written over the input file itself. -/
theorem outputPath_no_npy_overwrites_input (p : List Char) (hp : hasNpy p = false) :
    mainRun [p] = ⟨0, false, [p]⟩ := by
  have h : mainRun [p] = ⟨0, false, [replaceNpy p]⟩ := rfl
  rw [h, replaceNpy_of_not_hasNpy p hp]

/-- Witness for C10 at the input path "data.txt". -/
theorem outputPath_no_npy_overwrites_input_witness :
    hasNpy "data.txt".toList = false ∧
      mainRun ["data.txt".toList] = ⟨0, false, ["data.txt".toList]⟩ :=
  ⟨by decide, outputPath_no_npy_overwrites_input "data.txt".toList (by decide)⟩

end APA
